import Mathlib

/-!
Shallow embedding of `analyze.py` (LatencyPlotter): a command-line script that
decodes raw binary files of unsigned 32-bit integers, computes the
50th/75th/90th/99th percentiles with linear interpolation, and accumulates one
line-plot series and one histogram series per input file.
-/

/-- Model of `np.fromfile(f, dtype=np.uint32)`: decode a byte buffer as
unsigned 32-bit integers in native (little-endian) byte order; trailing
partial 4-byte groups are silently dropped. Bytes are naturals below 256. -/
def fromBytesUInt32 : List ℕ → List ℕ
  | b0 :: b1 :: b2 :: b3 :: rest =>
      (b0 + 256 * b1 + 256 ^ 2 * b2 + 256 ^ 3 * b3) :: fromBytesUInt32 rest
  | _ => []

/-- Re-encode unsigned 32-bit integers as little-endian bytes, four bytes per
element (the inverse direction of the decode, used for the round-trip law). -/
def toBytesUInt32 (xs : List ℕ) : List ℕ :=
  xs.flatMap fun x => [x % 256, x / 256 % 256, x / 256 ^ 2 % 256, x / 256 ^ 3 % 256]

/-- Source line `pcts = [50, 75, 90, 99]`: the fixed percentile points. -/
def pcts : List ℕ := [50, 75, 90, 99]

/-- Linear interpolation at fractional index `h` into the list `s`, as numpy
computes a percentile on sorted data with the default linear method: with
`i = floor h` and `g = h - i`, the value is `s[i] + g * (s[i+1] - s[i])`,
reading `s[i+1]` as `s[i]` when `i + 1` is out of range. -/
def interp (s : List ℚ) (h : ℚ) : ℚ :=
  let i := (Rat.floor h).toNat
  let lo := s.getD i 0
  let hi := s.getD (i + 1) lo
  lo + (h - (i : ℚ)) * (hi - lo)

/-- The sample sequence sorted ascending, injected into the rationals; numpy
sorts internally before interpolating. -/
def sortedSamples (a : List ℕ) : List ℚ :=
  (List.insertionSort (· ≤ ·) a).map (Nat.cast : ℕ → ℚ)

/-- Model of `np.percentile(a, q)` with the default linear interpolation
between closest ranks: the fractional rank is `(len(a) - 1) * q / 100`. -/
def npPercentile (a : List ℕ) (q : ℚ) : ℚ :=
  interp (sortedSamples a) (((a.length : ℚ) - 1) * q / 100)

/-- The four percentile values of one sample sequence, in the order of
`pcts`. -/
def percentileValues (a : List ℕ) : List ℚ :=
  pcts.map fun q => npPercentile a (q : ℚ)

/-- Model of the call `np.percentile(a, pcts)`: numpy raises on an empty
input array, so the result is `none` exactly when the sequence is empty. -/
def npPercentiles (a : List ℕ) : Option (List ℚ) :=
  if a.isEmpty then none else some (percentileValues a)

/-- Python `int()` applied to a numeric value: truncation toward zero. -/
def pyInt (q : ℚ) : ℤ :=
  if 0 ≤ q then Rat.floor q else -Rat.floor (-q)

/-- Decimal rendering of an integer, as Python prints it in an f-string. -/
def intStr (i : ℤ) : String :=
  if i < 0 then "-" ++ Nat.repr i.natAbs else Nat.repr i.toNat

/-- Python format spec `:02` on a natural number: zero-pad to width two. -/
def fmt02 (n : ℕ) : String :=
  if n < 10 then "0" ++ Nat.repr n else Nat.repr n

/-- The chunk appended to `hist_label` by one loop iteration, the f-string
`p{(100-pct):02}={int(v)}us ` (note the trailing space). -/
def pctChunk (pct : ℕ) (v : ℚ) : String :=
  "p" ++ fmt02 (100 - pct) ++ "=" ++ intStr (pyInt v) ++ "us "

/-- The composite histogram legend label built by the source: the file name,
then ` (`, then the four chunks in order, then `)`. -/
def histLabel (name : String) (ps : List ℚ) : String :=
  name ++ " (" ++ String.join (List.zipWith pctChunk pcts ps) ++ ")"

/-- The sub-label of the specification, `p{100-P:02d}={value}us`, with no
separator attached. -/
def subLabel (pct : ℕ) (v : ℚ) : String :=
  "p" ++ fmt02 (100 - pct) ++ "=" ++ intStr (pyInt v) ++ "us"

/-- Label as the specification words it for comparison with `histLabel`: the
file path, then the sub-labels joined by single spaces, wrapped in
parentheses. -/
def histLabelSpec (name : String) (ps : List ℚ) : String :=
  name ++ " (" ++ String.intercalate " " (List.zipWith subLabel pcts ps) ++ ")"

/-- One plotted series: its legend label and its raw data. -/
structure Series where
  label : String
  data : List ℕ

/-- The two plot areas `ax[0]` (line plot) and `ax[1]` (histogram), each
accumulating one series per input file. -/
structure FigState where
  linePlot : List Series
  hist : List Series

/-- The empty figure created by `plt.subplots(1, 2)`. -/
def initFig : FigState := ⟨[], []⟩

/-- One iteration of the `for f in args.input` loop: decode the file, compute
the percentiles (failing, like numpy, when no complete element was decoded),
build the histogram label, and append one series to each plot area. -/
def processFile (st : FigState) (name : String) (bytes : List ℕ) : Option FigState :=
  let a := fromBytesUInt32 bytes
  match npPercentiles a with
  | none => none
  | some ps =>
      some { linePlot := st.linePlot ++ [⟨name, a⟩]
             hist := st.hist ++ [⟨histLabel name ps, a⟩] }

/-- The loop over all input files, threading the accumulated figure state. -/
def runFilesAux (st : FigState) : List (String × List ℕ) → Option FigState
  | [] => some st
  | (n, b) :: rest =>
      match processFile st n b with
      | none => none
      | some st2 => runFilesAux st2 rest

/-- Model of the argparse positional argument `input` with one-or-more arity:
an empty argument list is rejected with a usage error before any file is
processed. -/
def parseArgs (argv : List String) : Except String (List String) :=
  match argv with
  | [] => .error "error: the following arguments are required: file"
  | l => .ok l

/-- Whole-program model: parse the argument list (the file names), then run
the per-file loop over the opened files (name paired with byte content).
An argparse failure or a percentile failure surfaces as an error. -/
def runProgram (files : List (String × List ℕ)) : Except String FigState :=
  match parseArgs (files.map Prod.fst) with
  | .error e => .error e
  | .ok _ =>
      match runFilesAux initFig files with
      | none => .error "empty sample sequence"
      | some st => .ok st

/-- The sample sequence `[10, 20, 30, 40]` repeated 25 times. -/
def samples100 : List ℕ := (List.replicate 25 [10, 20, 30, 40]).flatten

/-- The little-endian byte encoding of `samples100` (400 bytes). -/
def bytes100 : List ℕ := toBytesUInt32 samples100

/-! Helper lemmas about the byte decoding. -/

theorem fromBytesUInt32_length : ∀ l : List ℕ, (fromBytesUInt32 l).length = l.length / 4
  | [] => rfl
  | [_] => by simp [fromBytesUInt32]
  | [_, _] => by simp [fromBytesUInt32]
  | [_, _, _] => by simp [fromBytesUInt32]
  | _ :: _ :: _ :: _ :: rest => by
      rw [fromBytesUInt32]
      simp only [List.length_cons, fromBytesUInt32_length rest]
      omega

theorem toBytesUInt32_fromBytesUInt32 :
    ∀ l : List ℕ, l.length % 4 = 0 → (∀ b ∈ l, b < 256) →
      toBytesUInt32 (fromBytesUInt32 l) = l
  | [], _, _ => rfl
  | [_], h, _ => by simp at h
  | [_, _], h, _ => by simp at h
  | [_, _, _], h, _ => by simp at h
  | b0 :: b1 :: b2 :: b3 :: rest, h, hb => by
      have hrest : rest.length % 4 = 0 := by
        simp only [List.length_cons] at h; omega
      have h0 : b0 < 256 := hb b0 (by simp)
      have h1 : b1 < 256 := hb b1 (by simp)
      have h2 : b2 < 256 := hb b2 (by simp)
      have h3 : b3 < 256 := hb b3 (by simp)
      have hbr : ∀ b ∈ rest, b < 256 := fun b hbmem => hb b (by simp [hbmem])
      rw [fromBytesUInt32]
      show toBytesUInt32 (_ :: fromBytesUInt32 rest) = _
      rw [toBytesUInt32, List.flatMap_cons]
      rw [show List.flatMap (fromBytesUInt32 rest) _ =
            toBytesUInt32 (fromBytesUInt32 rest) from rfl]
      rw [toBytesUInt32_fromBytesUInt32 rest hrest hbr]
      simp only [List.cons_append, List.nil_append, List.cons.injEq]
      refine ⟨?_, ?_, ?_, ?_, trivial⟩ <;> omega

/-- Claim C1: for every input byte buffer whose length is not a multiple of
4, decoding as unsigned 32-bit integers produces exactly floor(len/4)
integers, silently dropping the trailing partial bytes. -/
theorem C1_decode_truncation (l : List ℕ) (h : l.length % 4 ≠ 0) :
    (fromBytesUInt32 l).length = l.length / 4 :=
  fromBytesUInt32_length l

theorem C1_decode_truncation_witness :
    ([1, 2, 3, 4, 5] : List ℕ).length % 4 ≠ 0 ∧
      (fromBytesUInt32 [1, 2, 3, 4, 5]).length = ([1, 2, 3, 4, 5] : List ℕ).length / 4 :=
  ⟨by decide, C1_decode_truncation [1, 2, 3, 4, 5] (by decide)⟩

/-- Claim C2: for every non-empty byte buffer whose length is a multiple of
4, decoding produces exactly len/4 unsigned 32-bit integers, and re-encoding
that integer sequence in native (little-endian) byte order reproduces the
original bytes. -/
theorem C2_decode_roundtrip (l : List ℕ) (hne : l ≠ []) (h4 : l.length % 4 = 0)
    (hbytes : ∀ b ∈ l, b < 256) :
    (fromBytesUInt32 l).length = l.length / 4 ∧
      toBytesUInt32 (fromBytesUInt32 l) = l :=
  ⟨fromBytesUInt32_length l, toBytesUInt32_fromBytesUInt32 l h4 hbytes⟩

theorem C2_decode_roundtrip_witness :
    (([1, 2, 3, 4, 255, 0, 0, 0] : List ℕ) ≠ [] ∧
        ([1, 2, 3, 4, 255, 0, 0, 0] : List ℕ).length % 4 = 0 ∧
        ∀ b ∈ ([1, 2, 3, 4, 255, 0, 0, 0] : List ℕ), b < 256) ∧
      (fromBytesUInt32 [1, 2, 3, 4, 255, 0, 0, 0]).length =
          ([1, 2, 3, 4, 255, 0, 0, 0] : List ℕ).length / 4 ∧
        toBytesUInt32 (fromBytesUInt32 [1, 2, 3, 4, 255, 0, 0, 0]) =
          [1, 2, 3, 4, 255, 0, 0, 0] :=
  ⟨⟨by decide, by decide, by decide⟩,
    C2_decode_roundtrip [1, 2, 3, 4, 255, 0, 0, 0] (by decide) (by decide) (by decide)⟩

/-- Claim C7: a file with fewer than 4 bytes decodes to the empty sample
sequence, the percentile call fails on it, and the loop body produces no
updated figure state for such a file. -/
theorem C7_short_file_fails (bytes : List ℕ) (h : bytes.length < 4) :
    fromBytesUInt32 bytes = [] ∧
      npPercentiles (fromBytesUInt32 bytes) = none ∧
      ∀ st name, processFile st name bytes = none := by
  have hlen : (fromBytesUInt32 bytes).length = 0 := by
    rw [fromBytesUInt32_length]; omega
  have hnil : fromBytesUInt32 bytes = [] := List.length_eq_zero.mp hlen
  refine ⟨hnil, ?_, ?_⟩
  · rw [hnil]; rfl
  · intro st name
    simp only [processFile, hnil]
    rfl

theorem C7_short_file_fails_witness :
    ([1, 2, 3] : List ℕ).length < 4 ∧
      (fromBytesUInt32 [1, 2, 3] = [] ∧
        npPercentiles (fromBytesUInt32 [1, 2, 3]) = none ∧
        ∀ st name, processFile st name [1, 2, 3] = none) :=
  ⟨by decide, C7_short_file_fails [1, 2, 3] (by decide)⟩

/-- Claim C8: with zero input files the argument parser rejects the
invocation and the program yields a usage error without reaching any
decoding, percentile, or plot-area computation. -/
theorem C8_empty_args_rejected :
    runProgram [] = Except.error "error: the following arguments are required: file" :=
  rfl

/-! Helper lemmas for evaluating the percentile interpolation. -/

theorem ratFloor_eq_intFloor (q : ℚ) : Rat.floor q = ⌊q⌋ :=
  (Rat.floor_def' q).trans Rat.floor_def.symm

theorem ratFloor_eq_of (q : ℚ) (i : ℕ) (h1 : (i : ℚ) ≤ q) (h2 : q < (i : ℚ) + 1) :
    Rat.floor q = (i : ℤ) := by
  rw [ratFloor_eq_intFloor, Int.floor_eq_iff]
  constructor <;> push_cast <;> linarith

theorem getD_map_ratCast (l : List ℕ) (i d : ℕ) :
    (l.map (Nat.cast : ℕ → ℚ)).getD i (d : ℚ) = (l.getD i d : ℚ) := by
  by_cases h : i < l.length
  · have h2 : i < (l.map (Nat.cast : ℕ → ℚ)).length := by
      rw [List.length_map]; exact h
    rw [List.getD_eq_getElem _ _ h2, List.getD_eq_getElem _ _ h, List.getElem_map]
  · have h2 : (l.map (Nat.cast : ℕ → ℚ)).length ≤ i := by
      rw [List.length_map]; exact le_of_not_lt h
    rw [List.getD_eq_default _ _ h2, List.getD_eq_default _ _ (le_of_not_lt h)]

theorem npPercentile_eval (a sorted : List ℕ) (q hq : ℚ) (i lo hi : ℕ)
    (hsort : List.insertionSort (· ≤ ·) a = sorted)
    (hh : ((a.length : ℚ) - 1) * q / 100 = hq)
    (hfl : Rat.floor hq = (i : ℤ))
    (hlo : sorted.getD i 0 = lo)
    (hhi : sorted.getD (i + 1) lo = hi) :
    npPercentile a q = (lo : ℚ) + (hq - (i : ℚ)) * ((hi : ℚ) - (lo : ℚ)) := by
  simp only [npPercentile, sortedSamples, interp, hsort, hh, hfl, Int.toNat_natCast]
  rw [show (0 : ℚ) = ((0 : ℕ) : ℚ) from by norm_num, getD_map_ratCast, hlo,
    getD_map_ratCast, hhi]

/-! Helper lemmas for the label formatting. -/

theorem pctChunk_eq_subLabel (pct : ℕ) (v : ℚ) :
    pctChunk pct v = subLabel pct v ++ " " := by
  simp only [pctChunk, subLabel]
  rw [show ("us " : String) = "us" ++ " " from by decide]
  simp [String.append_assoc]

theorem zipWith_pctChunk (qs : List ℕ) (ps : List ℚ) :
    List.zipWith pctChunk qs ps = (List.zipWith subLabel qs ps).map fun s => s ++ " " := by
  induction qs generalizing ps with
  | nil => simp
  | cons q qs ih =>
      cases ps with
      | nil => simp
      | cons p ps => simp [ih, pctChunk_eq_subLabel]

/-- Claim C5: every chunk emitted into the histogram label is the sub-label
`p` ++ (100 - P zero-padded to two digits) ++ `=` ++ (value truncated to an
integer) ++ `us`, followed by the single separator space; point 90 with
value 123.9 yields the sub-label exactly `p10=123us`, and point 99 yields
the prefix `p01`. -/
theorem C5_sublabel_format :
    (∀ pct v, pctChunk pct v = subLabel pct v ++ " ") ∧
      subLabel 90 ((1239 : ℚ) / 10) = "p10=123us" ∧
      ∀ v : ℚ, ∃ rest, subLabel 99 v = "p01" ++ rest := by
  refine ⟨pctChunk_eq_subLabel, ?_, ?_⟩
  · have hpy : pyInt ((1239 : ℚ) / 10) = 123 := by
      simp only [pyInt]
      rw [if_pos (by norm_num : (0 : ℚ) ≤ 1239 / 10),
        ratFloor_eq_of ((1239 : ℚ) / 10) 123 (by norm_num) (by norm_num)]
      norm_num
    simp only [subLabel]
    rw [hpy]
    decide
  · intro v
    refine ⟨"=" ++ intStr (pyInt v) ++ "us", ?_⟩
    simp only [subLabel]
    rw [show fmt02 (100 - 99) = "01" from by decide,
      show ("p" ++ "01" : String) = "p01" from by decide]
    rw [String.append_assoc, String.append_assoc, String.append_assoc]

theorem percentileValues_ones : percentileValues [1, 1, 1, 1] = [1, 1, 1, 1] := by
  have e50 : npPercentile [1, 1, 1, 1] 50 = 1 := by
    rw [npPercentile_eval [1, 1, 1, 1] [1, 1, 1, 1] 50 (3 / 2) 1 1 1 (by decide)
      (by norm_num) (ratFloor_eq_of _ 1 (by norm_num) (by norm_num)) (by decide) (by decide)]
    norm_num
  have e75 : npPercentile [1, 1, 1, 1] 75 = 1 := by
    rw [npPercentile_eval [1, 1, 1, 1] [1, 1, 1, 1] 75 (9 / 4) 2 1 1 (by decide)
      (by norm_num) (ratFloor_eq_of _ 2 (by norm_num) (by norm_num)) (by decide) (by decide)]
    norm_num
  have e90 : npPercentile [1, 1, 1, 1] 90 = 1 := by
    rw [npPercentile_eval [1, 1, 1, 1] [1, 1, 1, 1] 90 (27 / 10) 2 1 1 (by decide)
      (by norm_num) (ratFloor_eq_of _ 2 (by norm_num) (by norm_num)) (by decide) (by decide)]
    norm_num
  have e99 : npPercentile [1, 1, 1, 1] 99 = 1 := by
    rw [npPercentile_eval [1, 1, 1, 1] [1, 1, 1, 1] 99 (297 / 100) 2 1 1 (by decide)
      (by norm_num) (ratFloor_eq_of _ 2 (by norm_num) (by norm_num)) (by decide) (by decide)]
    norm_num
  simp [percentileValues, pcts, e50, e75, e90, e99]

/-- Claim C6 counterexample: for the input file `f` whose four decoded
samples all equal 1, the histogram label built by the source carries a
space before the closing parenthesis, so it is not the file path followed
by the parenthesized sub-labels joined by single spaces. -/
theorem C6_label_counterexample :
    histLabel "f" (percentileValues (fromBytesUInt32 (toBytesUInt32 [1, 1, 1, 1]))) ≠
      histLabelSpec "f" (percentileValues (fromBytesUInt32 (toBytesUInt32 [1, 1, 1, 1]))) := by
  rw [show fromBytesUInt32 (toBytesUInt32 [1, 1, 1, 1]) = [1, 1, 1, 1] from by decide,
    percentileValues_ones]
  decide

/-- Claim C6 (amended): the composite histogram legend label equals the file
path, then ` (`, then each of the four percentile sub-labels followed by one
space, then `)`; that is, the sub-labels are joined by single spaces but an
additional trailing space precedes the closing parenthesis. -/
theorem C6_amended_label_shape (name : String) (ps : List ℚ) :
    histLabel name ps =
      name ++ " (" ++ String.join ((List.zipWith subLabel pcts ps).map fun s => s ++ " ") ++ ")" := by
  simp only [histLabel, zipWith_pctChunk]

/-! Helper lemmas about the sorted sample sequence and the interpolation. -/

theorem sortedSamples_sorted (a : List ℕ) : List.Sorted (· ≤ ·) (sortedSamples a) := by
  have hs : List.Sorted (· ≤ ·) (List.insertionSort (· ≤ ·) a) :=
    List.sorted_insertionSort (· ≤ ·) a
  exact List.Pairwise.map _ (fun x y hxy => by exact_mod_cast hxy) hs

theorem sortedSamples_length (a : List ℕ) : (sortedSamples a).length = a.length := by
  simp [sortedSamples, List.length_insertionSort]

theorem mem_of_mem_sortedSamples {x : ℚ} {a : List ℕ} (hx : x ∈ sortedSamples a) :
    ∃ y ∈ a, (y : ℚ) = x := by
  simp only [sortedSamples, List.mem_map] at hx
  obtain ⟨y, hy, rfl⟩ := hx
  exact ⟨y, (List.perm_insertionSort (· ≤ ·) a).mem_iff.mp hy, rfl⟩

theorem getD_sorted_le (s : List ℚ) (hs : List.Sorted (· ≤ ·) s) {i j : ℕ}
    (hij : i ≤ j) (hj : j < s.length) : s.getD i 0 ≤ s.getD j 0 := by
  have hi : i < s.length := lt_of_le_of_lt hij hj
  rw [List.getD_eq_getElem _ _ hi, List.getD_eq_getElem _ _ hj]
  rcases lt_or_eq_of_le hij with h | h
  · have := List.pairwise_iff_get.mp hs ⟨i, hi⟩ ⟨j, hj⟩ (Fin.mk_lt_mk.mpr h)
    simpa using this
  · subst h
    exact le_refl _

theorem getD_succ_default_le (s : List ℚ) (hs : List.Sorted (· ≤ ·) s) {i : ℕ}
    (hi : i < s.length) : s.getD i 0 ≤ s.getD (i + 1) (s.getD i 0) := by
  by_cases h : i + 1 < s.length
  · have he : s.getD (i + 1) (s.getD i 0) = s.getD (i + 1) 0 := by
      rw [List.getD_eq_getElem _ _ h, List.getD_eq_getElem _ _ h]
    rw [he]
    exact getD_sorted_le s hs (Nat.le_succ i) h
  · rw [List.getD_eq_default _ _ (le_of_not_lt h)]

theorem interp_mono (s : List ℚ) (hs : List.Sorted (· ≤ ·) s)
    {h1 h2 : ℚ} (h0 : 0 ≤ h1) (h12 : h1 ≤ h2)
    (hub : h2 ≤ (s.length : ℚ) - 1) :
    interp s h1 ≤ interp s h2 := by
  have h02 : 0 ≤ h2 := le_trans h0 h12
  have hfl1 : 0 ≤ ⌊h1⌋ := Int.floor_nonneg.mpr h0
  have hfl2 : 0 ≤ ⌊h2⌋ := Int.floor_nonneg.mpr h02
  have e1 : (((Rat.floor h1).toNat : ℕ) : ℚ) = ((⌊h1⌋ : ℤ) : ℚ) := by
    rw [ratFloor_eq_intFloor]
    exact_mod_cast congrArg (fun z : ℤ => (z : ℚ)) (Int.toNat_of_nonneg hfl1)
  have e2 : (((Rat.floor h2).toNat : ℕ) : ℚ) = ((⌊h2⌋ : ℤ) : ℚ) := by
    rw [ratFloor_eq_intFloor]
    exact_mod_cast congrArg (fun z : ℤ => (z : ℚ)) (Int.toNat_of_nonneg hfl2)
  have lb1 : (((Rat.floor h1).toNat : ℕ) : ℚ) ≤ h1 := by
    rw [e1]; exact Int.floor_le h1
  have ub1 : h1 < (((Rat.floor h1).toNat : ℕ) : ℚ) + 1 := by
    rw [e1]; exact Int.lt_floor_add_one h1
  have lb2 : (((Rat.floor h2).toNat : ℕ) : ℚ) ≤ h2 := by
    rw [e2]; exact Int.floor_le h2
  have ub2 : h2 < (((Rat.floor h2).toNat : ℕ) : ℚ) + 1 := by
    rw [e2]; exact Int.lt_floor_add_one h2
  have hn2 : (Rat.floor h2).toNat < s.length := by
    have hq : (((Rat.floor h2).toNat : ℕ) : ℚ) + 1 ≤ (s.length : ℚ) := by
      have := le_trans lb2 hub
      linarith
    have h' : (Rat.floor h2).toNat + 1 ≤ s.length := by exact_mod_cast hq
    omega
  have h12n : (Rat.floor h1).toNat ≤ (Rat.floor h2).toNat := by
    have hq : (((Rat.floor h1).toNat : ℕ) : ℚ) < (((Rat.floor h2).toNat : ℕ) : ℚ) + 1 :=
      lt_of_le_of_lt (le_trans lb1 h12) ub2
    have h' : (Rat.floor h1).toNat < (Rat.floor h2).toNat + 1 := by exact_mod_cast hq
    omega
  simp only [interp]
  set j1 := (Rat.floor h1).toNat with hj1
  set j2 := (Rat.floor h2).toNat with hj2
  have hn1 : j1 < s.length := lt_of_le_of_lt h12n hn2
  have hll1 : s.getD j1 0 ≤ s.getD (j1 + 1) (s.getD j1 0) := getD_succ_default_le s hs hn1
  have hll2 : s.getD j2 0 ≤ s.getD (j2 + 1) (s.getD j2 0) := getD_succ_default_le s hs hn2
  rcases eq_or_lt_of_le h12n with heq | hlt
  · rw [heq]
    nlinarith [mul_nonneg (sub_nonneg.mpr h12) (sub_nonneg.mpr hll2)]
  · have step1 : s.getD j1 0 + (h1 - (j1 : ℚ)) * (s.getD (j1 + 1) (s.getD j1 0) - s.getD j1 0) ≤
        s.getD (j1 + 1) (s.getD j1 0) := by
      have hg : (0 : ℚ) ≤ 1 - (h1 - (j1 : ℚ)) := by linarith
      nlinarith [mul_nonneg hg (sub_nonneg.mpr hll1)]
    have hj1len : j1 + 1 < s.length := lt_of_le_of_lt (Nat.succ_le_of_lt hlt) hn2
    have step2 : s.getD (j1 + 1) (s.getD j1 0) ≤ s.getD j2 0 := by
      have he : s.getD (j1 + 1) (s.getD j1 0) = s.getD (j1 + 1) 0 := by
        rw [List.getD_eq_getElem _ _ hj1len, List.getD_eq_getElem _ _ hj1len]
      rw [he]
      exact getD_sorted_le s hs (Nat.succ_le_of_lt hlt) hn2
    have step3 : s.getD j2 0 ≤
        s.getD j2 0 + (h2 - (j2 : ℚ)) * (s.getD (j2 + 1) (s.getD j2 0) - s.getD j2 0) := by
      nlinarith [mul_nonneg (sub_nonneg.mpr lb2) (sub_nonneg.mpr hll2)]
    linarith

theorem interp_between (s : List ℚ) (hs : List.Sorted (· ≤ ·) s)
    {h : ℚ} (h0 : 0 ≤ h) (hub : h ≤ (s.length : ℚ) - 1) :
    ∃ x ∈ s, ∃ y ∈ s, x ≤ interp s h ∧ interp s h ≤ y := by
  have hfl : 0 ≤ ⌊h⌋ := Int.floor_nonneg.mpr h0
  have e : (((Rat.floor h).toNat : ℕ) : ℚ) = ((⌊h⌋ : ℤ) : ℚ) := by
    rw [ratFloor_eq_intFloor]
    exact_mod_cast congrArg (fun z : ℤ => (z : ℚ)) (Int.toNat_of_nonneg hfl)
  have lb : (((Rat.floor h).toNat : ℕ) : ℚ) ≤ h := by
    rw [e]; exact Int.floor_le h
  have ub : h < (((Rat.floor h).toNat : ℕ) : ℚ) + 1 := by
    rw [e]; exact Int.lt_floor_add_one h
  have hn : (Rat.floor h).toNat < s.length := by
    have hq : (((Rat.floor h).toNat : ℕ) : ℚ) + 1 ≤ (s.length : ℚ) := by
      have := le_trans lb hub
      linarith
    have h' : (Rat.floor h).toNat + 1 ≤ s.length := by exact_mod_cast hq
    omega
  simp only [interp]
  set j := (Rat.floor h).toNat with hj
  have hll : s.getD j 0 ≤ s.getD (j + 1) (s.getD j 0) := getD_succ_default_le s hs hn
  have hmemlo : s.getD j 0 ∈ s := by
    rw [List.getD_eq_getElem _ _ hn]
    exact List.getElem_mem hn
  have hlow : s.getD j 0 ≤ s.getD j 0 + (h - (j : ℚ)) * (s.getD (j + 1) (s.getD j 0) - s.getD j 0) := by
    nlinarith [mul_nonneg (sub_nonneg.mpr lb) (sub_nonneg.mpr hll)]
  have hhigh : s.getD j 0 + (h - (j : ℚ)) * (s.getD (j + 1) (s.getD j 0) - s.getD j 0) ≤
      s.getD (j + 1) (s.getD j 0) := by
    have hg : (0 : ℚ) ≤ 1 - (h - (j : ℚ)) := by linarith
    nlinarith [mul_nonneg hg (sub_nonneg.mpr hll)]
  refine ⟨s.getD j 0, hmemlo, s.getD (j + 1) (s.getD j 0), ?_, hlow, hhigh⟩
  by_cases hcase : j + 1 < s.length
  · rw [List.getD_eq_getElem _ _ hcase]
    exact List.getElem_mem hcase
  · rw [List.getD_eq_default _ _ (le_of_not_lt hcase)]
    exact hmemlo

theorem npPercentile_le_npPercentile (a : List ℕ) (ha : a ≠ [])
    {q1 q2 : ℚ} (hq0 : 0 ≤ q1) (hq12 : q1 ≤ q2) (hq100 : q2 ≤ 100) :
    npPercentile a q1 ≤ npPercentile a q2 := by
  have hn : 1 ≤ a.length := List.length_pos.mpr ha
  have hc : (0 : ℚ) ≤ (a.length : ℚ) - 1 := by
    have h1 : (1 : ℚ) ≤ (a.length : ℚ) := by exact_mod_cast hn
    linarith
  apply interp_mono (sortedSamples a) (sortedSamples_sorted a)
  · exact div_nonneg (mul_nonneg hc hq0) (by norm_num)
  · have := mul_le_mul_of_nonneg_left hq12 hc
    linarith
  · rw [sortedSamples_length]
    have := mul_le_mul_of_nonneg_left hq100 hc
    linarith

/-- Claim C4: for every non-empty decoded sample sequence, the four computed
percentile values are monotonically non-decreasing in the percentile point:
p50 value ≤ p75 value ≤ p90 value ≤ p99 value. -/
theorem C4_percentiles_monotone (a : List ℕ) (ha : a ≠ []) :
    npPercentile a 50 ≤ npPercentile a 75 ∧
      npPercentile a 75 ≤ npPercentile a 90 ∧
      npPercentile a 90 ≤ npPercentile a 99 :=
  ⟨npPercentile_le_npPercentile a ha (by norm_num) (by norm_num) (by norm_num),
    npPercentile_le_npPercentile a ha (by norm_num) (by norm_num) (by norm_num),
    npPercentile_le_npPercentile a ha (by norm_num) (by norm_num) (by norm_num)⟩

theorem C4_percentiles_monotone_witness :
    ([7, 3, 5] : List ℕ) ≠ [] ∧
      (npPercentile [7, 3, 5] 50 ≤ npPercentile [7, 3, 5] 75 ∧
        npPercentile [7, 3, 5] 75 ≤ npPercentile [7, 3, 5] 90 ∧
        npPercentile [7, 3, 5] 90 ≤ npPercentile [7, 3, 5] 99) :=
  ⟨by decide, C4_percentiles_monotone [7, 3, 5] (by decide)⟩

theorem npPercentile_between (a : List ℕ) (ha : a ≠ []) {q : ℚ}
    (hq0 : 0 ≤ q) (hq100 : q ≤ 100) (m M : ℕ)
    (hm : ∀ b ∈ a, m ≤ b) (hM : ∀ b ∈ a, b ≤ M) :
    (m : ℚ) ≤ npPercentile a q ∧ npPercentile a q ≤ (M : ℚ) := by
  have hn : 1 ≤ a.length := List.length_pos.mpr ha
  have hc : (0 : ℚ) ≤ (a.length : ℚ) - 1 := by
    have h1 : (1 : ℚ) ≤ (a.length : ℚ) := by exact_mod_cast hn
    linarith
  have h0 : 0 ≤ ((a.length : ℚ) - 1) * q / 100 :=
    div_nonneg (mul_nonneg hc hq0) (by norm_num)
  have hub : ((a.length : ℚ) - 1) * q / 100 ≤ ((sortedSamples a).length : ℚ) - 1 := by
    rw [sortedSamples_length]
    have := mul_le_mul_of_nonneg_left hq100 hc
    linarith
  obtain ⟨x, hxmem, y, hymem, hxle, hley⟩ :=
    interp_between (sortedSamples a) (sortedSamples_sorted a) h0 hub
  obtain ⟨x', hx'mem, rfl⟩ := mem_of_mem_sortedSamples hxmem
  obtain ⟨y', hy'mem, rfl⟩ := mem_of_mem_sortedSamples hymem
  constructor
  · refine le_trans ?_ hxle
    exact_mod_cast hm x' hx'mem
  · refine le_trans hley ?_
    exact_mod_cast hM y' hy'mem

/-- Claim C10: for every non-empty sample sequence, each of the four computed
percentile values lies between the minimum and the maximum element of the
sequence inclusive. -/
theorem C10_percentile_in_range (a : List ℕ) (m M : ℕ)
    (hm : m ∈ a ∧ ∀ b ∈ a, m ≤ b) (hM : M ∈ a ∧ ∀ b ∈ a, b ≤ M) :
    ∀ q ∈ pcts, (m : ℚ) ≤ npPercentile a (q : ℚ) ∧ npPercentile a (q : ℚ) ≤ (M : ℚ) := by
  intro q hq
  have ha : a ≠ [] := List.ne_nil_of_mem hm.1
  have hq' : q = 50 ∨ q = 75 ∨ q = 90 ∨ q = 99 := by
    simpa [pcts] using hq
  rcases hq' with rfl | rfl | rfl | rfl <;>
    exact npPercentile_between a ha (by norm_num) (by norm_num) m M hm.2 hM.2

/-! Helper characterization of the per-file loop. -/

theorem runFilesAux_eq (files : List (String × List ℕ)) (st : FigState)
    (h : ∀ p ∈ files, fromBytesUInt32 p.2 ≠ []) :
    runFilesAux st files = some
      ⟨st.linePlot ++ files.map fun p => ⟨p.1, fromBytesUInt32 p.2⟩,
        st.hist ++ files.map fun p =>
          ⟨histLabel p.1 (percentileValues (fromBytesUInt32 p.2)), fromBytesUInt32 p.2⟩⟩ := by
  induction files generalizing st with
  | nil => simp [runFilesAux]
  | cons p rest ih =>
      obtain ⟨n, b⟩ := p
      have hp : fromBytesUInt32 b ≠ [] := h (n, b) (List.mem_cons_self _ _)
      have hrest : ∀ q ∈ rest, fromBytesUInt32 q.2 ≠ [] := fun q hq =>
        h q (List.mem_cons_of_mem _ hq)
      have hps : npPercentiles (fromBytesUInt32 b) =
          some (percentileValues (fromBytesUInt32 b)) := by
        unfold npPercentiles
        rw [if_neg (by simpa using hp)]
      simp only [runFilesAux, processFile, hps]
      rw [ih _ hrest]
      simp [List.append_assoc]

/-- Claim C9: over any run in which every input file decodes to a non-empty
sample sequence, each file contributes exactly one line-plot series (labeled
with its path and carrying its decoded samples) and exactly one histogram
series (labeled with the composite label, hence prefixed by the path), so
both legends have exactly one entry per file, in file order. -/
theorem C9_one_series_per_file (files : List (String × List ℕ))
    (h : ∀ p ∈ files, fromBytesUInt32 p.2 ≠ []) :
    ∃ st, runFilesAux initFig files = some st ∧
      st.linePlot = (files.map fun p => ⟨p.1, fromBytesUInt32 p.2⟩) ∧
      st.hist = (files.map fun p =>
        ⟨histLabel p.1 (percentileValues (fromBytesUInt32 p.2)), fromBytesUInt32 p.2⟩) ∧
      st.linePlot.length = files.length ∧
      st.hist.length = files.length ∧
      ∀ i, i < files.length →
        (st.linePlot.getD i ⟨"", []⟩).label = (files.getD i ("", [])).1 ∧
        ∃ rest, (st.hist.getD i ⟨"", []⟩).label = (files.getD i ("", [])).1 ++ rest := by
  refine ⟨_, runFilesAux_eq files initFig h, ?_, ?_, ?_, ?_, ?_⟩
  · simp [initFig]
  · simp [initFig]
  · simp [initFig]
  · simp [initFig]
  · intro i hi
    simp only [initFig, List.nil_append]
    have hl1 : i < (files.map fun p => (⟨p.1, fromBytesUInt32 p.2⟩ : Series)).length := by
      simpa using hi
    have hl2 : i < (files.map fun p =>
        (⟨histLabel p.1 (percentileValues (fromBytesUInt32 p.2)),
          fromBytesUInt32 p.2⟩ : Series)).length := by
      simpa using hi
    rw [List.getD_eq_getElem _ _ hl1, List.getD_eq_getElem _ _ hl2,
      List.getD_eq_getElem _ _ hi, List.getElem_map, List.getElem_map]
    refine ⟨rfl, " (" ++ String.join (List.zipWith pctChunk pcts
      (percentileValues (fromBytesUInt32 (files[i]).2))) ++ ")", ?_⟩
    simp [histLabel, String.append_assoc]

theorem C9_one_series_per_file_witness :
    (∀ p ∈ ([("a", [1, 0, 0, 0]), ("b", [2, 0, 0, 0])] : List (String × List ℕ)),
        fromBytesUInt32 p.2 ≠ []) ∧
      ∃ st, runFilesAux initFig [("a", [1, 0, 0, 0]), ("b", [2, 0, 0, 0])] = some st ∧
        st.linePlot = (([("a", [1, 0, 0, 0]), ("b", [2, 0, 0, 0])] :
          List (String × List ℕ)).map fun p => ⟨p.1, fromBytesUInt32 p.2⟩) ∧
        st.hist = (([("a", [1, 0, 0, 0]), ("b", [2, 0, 0, 0])] :
          List (String × List ℕ)).map fun p =>
            ⟨histLabel p.1 (percentileValues (fromBytesUInt32 p.2)), fromBytesUInt32 p.2⟩) ∧
        st.linePlot.length = ([("a", [1, 0, 0, 0]), ("b", [2, 0, 0, 0])] :
          List (String × List ℕ)).length ∧
        st.hist.length = ([("a", [1, 0, 0, 0]), ("b", [2, 0, 0, 0])] :
          List (String × List ℕ)).length ∧
        ∀ i, i < ([("a", [1, 0, 0, 0]), ("b", [2, 0, 0, 0])] :
            List (String × List ℕ)).length →
          (st.linePlot.getD i ⟨"", []⟩).label =
            (([("a", [1, 0, 0, 0]), ("b", [2, 0, 0, 0])] :
              List (String × List ℕ)).getD i ("", [])).1 ∧
          ∃ rest, (st.hist.getD i ⟨"", []⟩).label =
            (([("a", [1, 0, 0, 0]), ("b", [2, 0, 0, 0])] :
              List (String × List ℕ)).getD i ("", [])).1 ++ rest :=
  ⟨by decide, C9_one_series_per_file [("a", [1, 0, 0, 0]), ("b", [2, 0, 0, 0])] (by decide)⟩

/-- Claim C3: for the input file whose bytes encode the integers
10, 20, 30, 40 repeated 25 times, the decoded sequence has 100 elements,
the 50th percentile under linear interpolation equals 25, and the line plot
and the histogram each receive exactly one series for this file. -/
theorem C3_end_to_end :
    (fromBytesUInt32 bytes100).length = 100 ∧
      npPercentile (fromBytesUInt32 bytes100) 50 = 25 ∧
      (runFilesAux initFig [("data.bin", bytes100)]).map
          (fun st => (st.linePlot.length, st.hist.length)) = some (1, 1) := by
  refine ⟨by decide, ?_, by decide⟩
  rw [show fromBytesUInt32 bytes100 = samples100 from by decide]
  rw [npPercentile_eval samples100
    (List.replicate 25 10 ++ List.replicate 25 20 ++ List.replicate 25 30 ++ List.replicate 25 40)
    50 (99 / 2) 49 20 30 (by decide)
    (by rw [show samples100.length = 100 from by decide]; norm_num)
    (ratFloor_eq_of _ 49 (by norm_num) (by norm_num)) (by decide) (by decide)]
  norm_num

theorem C10_percentile_in_range_witness :
    ((1 ∈ ([4, 1, 9] : List ℕ) ∧ ∀ b ∈ ([4, 1, 9] : List ℕ), 1 ≤ b) ∧
        (9 ∈ ([4, 1, 9] : List ℕ) ∧ ∀ b ∈ ([4, 1, 9] : List ℕ), b ≤ 9)) ∧
      ∀ q ∈ pcts, ((1 : ℕ) : ℚ) ≤ npPercentile [4, 1, 9] (q : ℚ) ∧
        npPercentile [4, 1, 9] (q : ℚ) ≤ ((9 : ℕ) : ℚ) :=
  ⟨⟨⟨by decide, by decide⟩, ⟨by decide, by decide⟩⟩,
    C10_percentile_in_range [4, 1, 9] 1 9 ⟨by decide, by decide⟩ ⟨by decide, by decide⟩⟩
